import Mathlib

/-!
Verification of the grid-filling subsystem of pyinterp
(`src/pyinterp/core/include/pyinterp/fill.hpp`).

The development shallowly embeds the C++ code:

* a grid is a total function `ℤ → ℤ → ℚ` (the solver's arithmetic on
  `double` is modelled by exact rational arithmetic);
* the undefined-cell mask is a boolean function, fixed for the whole run,
  exactly as the C++ computes it once before iterating;
* `detail::gauss_seidel`'s worker is embedded as a fold over the column
  indices of its band (`runRows`, `worker`);
* the multi-threaded pipelined execution is embedded as a fold over an
  arbitrary schedule of `(column, band)` work units that respects the
  pipeline handshake order (a band may process column `ix` only after the
  preceding band has completed column `ix`);
* the top level `fill::gauss_seidel` is embedded with grids whose cells are
  `Option ℚ` (`none` models the NaN sentinel);
* `fill::loess` is embedded over real numbers, since its tri-cube weight
  involves a square root.
-/

namespace PyinterpFill

/-! ### Integer index ranges -/

/-- The list of integers `a, a+1, …, b-1` (empty when `b ≤ a`). -/
def intRange (a b : ℤ) : List ℤ :=
  List.map (fun k : ℕ => a + (k : ℤ)) (List.range (b - a).toNat)

/-! ### Neighbor index selection (`detail::gauss_seidel`, fill.hpp lines 137–151)

`ix0`/`ix1` are the left/right neighbor indices along the wrap-capable
x-axis, `iy0`/`iy1` the neighbors along the y-axis.  They transcribe

    auto ix0 = ix == 0 ? (is_circle ? x_size - 1 : 1) : ix - 1;
    auto ix1 = ix == x_size - 1 ? (is_circle ? 0 : x_size - 2) : ix + 1;
    auto iy0 = iy == 0 ? 1 : iy - 1;
    auto iy1 = iy == y_size - 1 ? y_size - 2 : iy + 1;
-/

def ix0 (isCircle : Bool) (xSize ix : ℤ) : ℤ :=
  if ix = 0 then (if isCircle then xSize - 1 else 1) else ix - 1

def ix1 (isCircle : Bool) (xSize ix : ℤ) : ℤ :=
  if ix = xSize - 1 then (if isCircle then 0 else xSize - 2) else ix + 1

def iy0 (iy : ℤ) : ℤ :=
  if iy = 0 then 1 else iy - 1

def iy1 (ySize iy : ℤ) : ℤ :=
  if iy = ySize - 1 then ySize - 2 else iy + 1

/-! ### The relaxation sweep (`detail::gauss_seidel`) -/

/-- A grid of rational values, indexed `(ix, iy)` like the C++ `grid(ix, iy)`. -/
abbrev Grid : Type := ℤ → ℤ → ℚ

/-- Static data of one sweep: grid shape, circularity flag, relaxation
constant and the (fixed) undefined-cell mask. -/
structure Params where
  xSize : ℤ
  ySize : ℤ
  isCircle : Bool
  relax : ℚ
  mask : ℤ → ℤ → Bool

/-- Point update of a grid (the C++ `grid(ix, iy) = v` assignment). -/
def setCell (g : Grid) (ix iy : ℤ) (v : ℚ) : Grid :=
  fun a b => if a = ix ∧ b = iy then v else g a b

/-- The residual computed by `cell_fill` (fill.hpp lines 122–125):
`(0.25 * (grid(ix0, iy) + grid(ix1, iy) + grid(ix, iy0) + grid(ix, iy1)) -
grid(ix, iy)) * relaxation`. -/
def residual (P : Params) (g : Grid) (ix iy : ℤ) : ℚ :=
  ((1 / 4 : ℚ) * (g (ix0 P.isCircle P.xSize ix) iy + g (ix1 P.isCircle P.xSize ix) iy +
      g ix (iy0 iy) + g ix (iy1 P.ySize iy)) - g ix iy) * P.relax

/-- `cell_fill` (fill.hpp lines 119–128): add the residual to the cell and
fold its absolute value into the running maximum. -/
def cell_fill (P : Params) (s : Grid × ℚ) (ix iy : ℤ) : Grid × ℚ :=
  (setCell s.1 ix iy (s.1 ix iy + residual P s.1 ix iy),
   max s.2 |residual P s.1 ix iy|)

/-- The inner loop of the worker at column `ix`: visit the rows in `ys` in
order, applying `cell_fill` exactly at the masked cells. -/
def runRows (P : Params) (ix : ℤ) : List ℤ → Grid × ℚ → Grid × ℚ
  | [], s => s
  | iy :: rest, s =>
      if P.mask ix iy then runRows P ix rest (cell_fill P s ix iy)
      else runRows P ix rest s

/-- One band worker (fill.hpp lines 115–166): starting from a zero residual
accumulator, process every column `ix ∈ [0, xSize)`, and within a column the
rows `iy ∈ [yStart, yEnd)`. -/
def worker (P : Params) (yStart yEnd : ℤ) (g : Grid) : Grid × ℚ :=
  (intRange 0 P.xSize).foldl
    (fun s ix => runRows P ix (intRange yStart yEnd) s) (g, 0)

/-- One whole single-threaded relaxation sweep (`num_threads == 1` path of
`detail::gauss_seidel`, fill.hpp line 169). -/
def sweep (P : Params) (g : Grid) : Grid × ℚ :=
  worker P 0 P.ySize g

/-! ### The pipelined multi-band execution (`num_threads >= 2` path)

The C++ splits the y-range into `num_threads` contiguous bands and runs one
worker per band.  A worker processes its band column by column; before
processing column `ix` it spins until the preceding band's worker has
published completion of column `ix` (fill.hpp lines 142–147 and 159–161).
We embed an execution as a list of atomic work units `(ix, b)` — "band `b`
processes column `ix` of its own rows" — executed in sequence.  The
handshake admits exactly the executions that are linear extensions of the
product order on `(ix, b)` (program order within a band, and the pipe
constraint `(ix, b-1)` before `(ix, b)` across bands). -/

/-- The contiguous bands: band `b` owns rows `[cut b, cut (b+1))`. -/
structure Bands where
  nb : ℕ
  cut : ℕ → ℤ

/-- The rows owned by band `b`. -/
def bandRows (B : Bands) (b : ℕ) : List ℤ :=
  intRange (B.cut b) (B.cut (b + 1))

/-- The band layout used by `detail::gauss_seidel` (fill.hpp lines 175–190):
at least one band, bands tile `[0, ySize)` in order. -/
def validBands (P : Params) (B : Bands) : Prop :=
  1 ≤ B.nb ∧ B.cut 0 = 0 ∧ B.cut B.nb = P.ySize ∧
    ∀ i j : ℕ, i ≤ j → B.cut i ≤ B.cut j

/-- One work unit: band `u.2` processes column `u.1` of its rows, reading and
updating its own maximum-residual slot (the C++ `max_residuals[index]`). -/
def act (P : Params) (B : Bands) (u : ℤ × ℕ) (s : Grid × (ℕ → ℚ)) :
    Grid × (ℕ → ℚ) :=
  (
    (runRows P u.1 (bandRows B u.2) (s.1, s.2 u.2)).1,
    Function.update s.2 u.2 (runRows P u.1 (bandRows B u.2) (s.1, s.2 u.2)).2)

/-- Execute a schedule of work units starting from grid `g` and all-zero
per-band residual maxima. -/
def runSchedule (P : Params) (B : Bands) (L : List (ℤ × ℕ)) (g : Grid) :
    Grid × (ℕ → ℚ) :=
  L.foldl (fun s u => act P B u s) (g, fun _ => 0)

/-- `*max_element(max_residuals.begin(), max_residuals.end())` on a nonempty
vector (fill.hpp line 198). -/
def maxList : List ℚ → ℚ
  | [] => 0
  | x :: xs => xs.foldl max x

/-- The result of the multi-band `detail::gauss_seidel` under schedule `L`:
the final grid together with the maximum of the per-band residual maxima. -/
def gauss_seidel_par (P : Params) (B : Bands) (L : List (ℤ × ℕ)) (g : Grid) :
    Grid × ℚ :=
  ((runSchedule P B L g).1,
   maxList ((List.range B.nb).map (runSchedule P B L g).2))

/-- The dependency order the pipeline handshake enforces on work units: the
product order of column index and band index. -/
def unitLT (u v : ℤ × ℕ) : Prop :=
  u.1 ≤ v.1 ∧ u.2 ≤ v.2 ∧ u ≠ v

instance unitLT_dec (u v : ℤ × ℕ) : Decidable (unitLT u v) := by
  unfold unitLT
  infer_instance

/-- A schedule is admissible when no unit runs before one it depends on. -/
def Admissible (L : List (ℤ × ℕ)) : Prop :=
  L.Pairwise (fun u v => ¬ unitLT v u)

/-- The fully sequential reference schedule: columns in increasing order and,
within a column, bands from bottom to top.  This is the per-cell update order
of the single-threaded sweep. -/
def lexUnits (P : Params) (B : Bands) : List (ℤ × ℕ) :=
  (intRange 0 P.xSize).flatMap fun ix =>
    (List.range B.nb).map fun b => (ix, b)

instance admissible_dec (L : List (ℤ × ℕ)) : Decidable (Admissible L) := by
  unfold Admissible
  infer_instance

/-! ### The top-level fill (`fill::gauss_seidel`, fill.hpp lines 225–273)

Grids with possibly-undefined cells carry `Option ℚ` values; `none` models
the NaN sentinel.  The convergence loop is embedded with the single-threaded
sweep (`num_threads == 1` path); claim C2 shows the pipelined executions
compute the same function. -/

/-- A caller-supplied grid: shape plus cell values, `none` = NaN. -/
structure GridData where
  xSize : ℤ
  ySize : ℤ
  val : ℤ → ℤ → Option ℚ

/-- `grid.hasNaN()` (fill.hpp line 234) over the in-range cells. -/
def hasNaN (G : GridData) : Bool :=
  (intRange 0 G.xSize).any fun ix =>
    (intRange 0 G.ySize).any fun iy => (G.val ix iy).isNone

/-- `fill::FirstGuess` (fill.hpp lines 206–209). -/
inductive FirstGuess where
  | kZero
  | kZonalAverage

/-- The count/sum accumulated over the defined cells of line `iy` by
`detail::set_zonal_average` (fill.hpp lines 44–53; the boost accumulator
keeps count and mean, equivalently count and sum). -/
def lineAcc (G : GridData) (iy : ℤ) : ℕ × ℚ :=
  (intRange 0 G.xSize).foldl
    (fun a ix =>
      match G.val ix iy with
      | some v => (a.1 + 1, a.2 + v)
      | none => a)
    (0, 0)

/-- The first guess of line `iy`: the mean of the accumulated values when the
count is nonzero, otherwise 0 (fill.hpp lines 57–59). -/
def first_guess_line (G : GridData) (iy : ℤ) : ℚ :=
  if (lineAcc G iy).1 = 0 then 0 else (lineAcc G iy).2 / ((lineAcc G iy).1 : ℚ)

/-- `detail::set_zonal_average` (fill.hpp lines 31–75): defined cells keep
their value, undefined cells of line `iy` receive that line's first guess. -/
def set_zonal_average (G : GridData) : Grid :=
  fun ix iy =>
    match G.val ix iy with
    | some v => v
    | none => first_guess_line G iy

/-- First-guess seeding (fill.hpp lines 248–258): `kZero` replaces undefined
cells by 0, `kZonalAverage` by the zonal average. -/
def first_guess_grid (G : GridData) : FirstGuess → Grid
  | FirstGuess.kZero => fun ix iy => (G.val ix iy).getD 0
  | FirstGuess.kZonalAverage => set_zonal_average G

/-- The sweep parameters built by `fill::gauss_seidel`: the mask is computed
once from the grid's NaN positions (fill.hpp lines 244–245). -/
def fillParams (G : GridData) (isCircle : Bool) (relax : ℚ) : Params :=
  ⟨G.xSize, G.ySize, isCircle, relax, fun ix iy => (G.val ix iy).isNone⟩

/-- The convergence loop (fill.hpp lines 260–271): run up to `fuel` more
sweeps, incrementing the iteration counter before each, and stop early as
soon as a sweep's residual is `< eps`.  Returns (iterations, residual,
final grid). -/
def sweepLoop (P : Params) (eps : ℚ) : ℕ → ℕ → ℚ → Grid → ℕ × ℚ × Grid
  | 0, iter, mr, g => (iter, mr, g)
  | fuel + 1, iter, _, g =>
      if (sweep P g).2 < eps then (iter + 1, (sweep P g).2, (sweep P g).1)
      else sweepLoop P eps fuel (iter + 1) (sweep P g).2 (sweep P g).1

/-- `fill::gauss_seidel` (fill.hpp lines 226–273): short-circuit when the
grid has no NaN; otherwise build the mask, seed the first guess, and iterate
sweeps.  Returns the (iterations, residual) pair and the resulting grid. -/
def fill_gauss_seidel (G : GridData) (fg : FirstGuess) (isCircle : Bool)
    (maxIterations : ℕ) (eps relax : ℚ) : (ℕ × ℚ) × GridData :=
  if hasNaN G then
    ((
      (sweepLoop (fillParams G isCircle relax) eps maxIterations 0 0
        (first_guess_grid G fg)).1,
      (sweepLoop (fillParams G isCircle relax) eps maxIterations 0 0
        (first_guess_grid G fg)).2.1),
     ⟨G.xSize, G.ySize, fun ix iy =>
        if 0 ≤ ix ∧ ix < G.xSize ∧ 0 ≤ iy ∧ iy < G.ySize then
          some ((sweepLoop (fillParams G isCircle relax) eps maxIterations 0 0
            (first_guess_grid G fg)).2.2 ix iy)
        else G.val ix iy⟩)
  else ((0, 0), G)

/-- The grid after `n` complete sweeps. -/
def nthGrid (P : Params) (g : Grid) : ℕ → Grid
  | 0 => g
  | n + 1 => (sweep P (nthGrid P g n)).1

/-- The residual returned by sweep number `n + 1` (0-based `n`). -/
def nthRes (P : Params) (g : Grid) (n : ℕ) : ℚ :=
  (sweep P (nthGrid P g n)).2

/-- The 5×5 grid of claim C6: all ones except the undefined center cell. -/
def gridC6 : GridData :=
  ⟨5, 5, fun ix iy => if ix = 2 ∧ iy = 2 then none else some 1⟩

/-- The values of the defined cells of line `iy`. -/
def definedLine (G : GridData) (iy : ℤ) : List ℚ :=
  (intRange 0 G.xSize).filterMap fun ix => G.val ix iy

/-! ### The LOESS extrapolator (`fill::loess`, fill.hpp lines 288–358)

The tri-cube weight involves a square root, so this part of the embedding
lives over the real numbers.  The `Axis`/`Grid2D` collaborators are not part
of the sources; following the specification, a grid carries its two axes as
coordinate-lookup functions, and the windowed-index search is modelled from
the spec's description. -/

/-- A 2-d grid exposed through the axis/grid collaborator: shape, coordinate
lookup along each axis, and cell values (`none` = NaN). -/
structure LGrid where
  xSize : ℤ
  ySize : ℤ
  xc : ℤ → ℝ
  yc : ℤ → ℝ
  val : ℤ → ℤ → Option ℝ

/-- Modelled from the spec: `Axis::find_indexes(coordinate, n, kSym)`, the
axis collaborator's windowed-index search in symmetric boundary mode — the
window of up to `2n` + 1 indices centred on the cell's index, truncated at
the grid edges ("may return fewer than the requested window width near grid
edges"). -/
def find_indexes (size i : ℤ) (n : ℕ) : List ℤ :=
  intRange (max 0 (i - n)) (min size (i + n + 1))

/-- The tri-cube weight `d <= 1 ? (1 - d^3)^3 : 0` (fill.hpp lines 331–332). -/
noncomputable def triCube (d : ℝ) : ℝ :=
  if d ≤ 1 then (1 - d ^ 3) ^ 3 else 0

/-- The normalized distance of window cell `(wx, wy)` from the centre
`(ix, iy)` (fill.hpp lines 328–330): axis-coordinate differences divided by
the half-window widths. -/
noncomputable def cellDist (G : LGrid) (nx ny : ℕ) (ix iy wx wy : ℤ) : ℝ :=
  Real.sqrt (((G.xc wx - G.xc ix) / (nx : ℝ)) ^ 2 +
    ((G.yc wy - G.yc iy) / (ny : ℝ)) ^ 2)

/-- The `(value, weight)` accumulation over the window of an undefined cell
(fill.hpp lines 315–337): undefined window cells are skipped, defined ones
contribute `w * z` and `w`. -/
noncomputable def loess_acc (G : LGrid) (nx ny : ℕ) (ix iy : ℤ) : ℝ × ℝ :=
  (find_indexes G.xSize ix nx).foldl (fun a wx =>
    (find_indexes G.ySize iy ny).foldl (fun a wy =>
      match G.val wx wy with
      | none => a
      | some zi =>
          (a.1 + triCube (cellDist G nx ny ix iy wx wy) * zi,
           a.2 + triCube (cellDist G nx ny ix iy wx wy))) a) (0, 0)

/-- One output cell of `fill::loess` (fill.hpp lines 305–345): defined cells
are copied; an undefined cell becomes `value / weight` when the accumulated
weight is nonzero and is passed through unchanged otherwise. -/
noncomputable def loess_cell (G : LGrid) (nx ny : ℕ) (ix iy : ℤ) : Option ℝ :=
  match G.val ix iy with
  | some z => some z
  | none =>
      if (loess_acc G nx ny ix iy).2 ≠ 0 then
        some ((loess_acc G nx ny ix iy).1 / (loess_acc G nx ny ix iy).2)
      else none

/-- The output grid of `fill::loess`. -/
noncomputable def loess (G : LGrid) (nx ny : ℕ) : ℤ → ℤ → Option ℝ :=
  fun ix iy => loess_cell G nx ny ix iy

/-- All window cells of `(ix, iy)`, in the traversal order of the two nested
loops. -/
def windowPairs (G : LGrid) (nx ny : ℕ) (ix iy : ℤ) : List (ℤ × ℤ) :=
  (find_indexes G.xSize ix nx).flatMap fun wx =>
    (find_indexes G.ySize iy ny).map fun wy => (wx, wy)

/-- The defined window cells, paired with their values. -/
noncomputable def definedPairs (G : LGrid) (nx ny : ℕ) (ix iy : ℤ) :
    List ((ℤ × ℤ) × ℝ) :=
  (windowPairs G nx ny ix iy).filterMap fun p =>
    (G.val p.1 p.2).map fun z => (p, z)

/-- Claim C8's reading of the distance, following the spec's words: Δx, Δy
measured in grid-index units (not axis coordinates), for comparison with the
source's `loess_cell`. -/
noncomputable def loess_acc_index_units (G : LGrid) (nx ny : ℕ) (ix iy : ℤ) :
    ℝ × ℝ :=
  (find_indexes G.xSize ix nx).foldl (fun a wx =>
    (find_indexes G.ySize iy ny).foldl (fun a wy =>
      match G.val wx wy with
      | none => a
      | some zi =>
          (a.1 + triCube (Real.sqrt ((((wx - ix : ℤ) : ℝ) / (nx : ℝ)) ^ 2 +
              (((wy - iy : ℤ) : ℝ) / (ny : ℝ)) ^ 2)) * zi,
           a.2 + triCube (Real.sqrt ((((wx - ix : ℤ) : ℝ) / (nx : ℝ)) ^ 2 +
              (((wy - iy : ℤ) : ℝ) / (ny : ℝ)) ^ 2)))) a) (0, 0)

/-- The per-cell output claim C8 describes, with index-unit distances. -/
noncomputable def loess_cell_index_units (G : LGrid) (nx ny : ℕ) (ix iy : ℤ) :
    Option ℝ :=
  match G.val ix iy with
  | some z => some z
  | none =>
      if (loess_acc_index_units G nx ny ix iy).2 ≠ 0 then
        some ((loess_acc_index_units G nx ny ix iy).1 /
          (loess_acc_index_units G nx ny ix iy).2)
      else none

/-- The counterexample grid: two columns at axis coordinates 0 and 1/2 (axis
spacing 1/2, not 1), a single row at coordinate 0; cell (0,0) undefined,
cell (1,0) defined with value 5. -/
noncomputable def gridC8 : LGrid :=
  ⟨2, 1, fun i => (i : ℝ) / 2, fun _ => 0,
   fun ix iy => if ix = 1 ∧ iy = 0 then some 5 else none⟩

/-- Witness for the amended C8: a degenerate axis with all coordinates equal
makes every distance 0 and every weight 1, so the single defined neighbor
with value 5 is returned exactly. -/
noncomputable def gridC8w : LGrid :=
  ⟨2, 1, fun _ => 0, fun _ => 0,
   fun ix iy => if ix = 1 ∧ iy = 0 then some 5 else none⟩

/-- Witness for C9: a 2×2 grid that is entirely undefined stays undefined. -/
noncomputable def gridC9 : LGrid :=
  ⟨2, 2, fun _ => 0, fun _ => 0, fun _ _ => none⟩

theorem mem_intRange {a b r : ℤ} : r ∈ intRange a b ↔ a ≤ r ∧ r < b := by
  unfold intRange
  simp only [List.mem_map, List.mem_range]
  constructor
  · rintro ⟨k, hk, rfl⟩
    omega
  · rintro ⟨h1, h2⟩
    exact ⟨(r - a).toNat, by omega, by omega⟩

theorem intRange_append {a b c : ℤ} (hab : a ≤ b) (hbc : b ≤ c) :
    intRange a c = intRange a b ++ intRange b c := by
  unfold intRange
  have hsum : (c - a).toNat = (b - a).toNat + (c - b).toNat := by omega
  rw [hsum, List.range_add, List.map_append, List.map_map]
  congr 1
  apply List.map_congr_left
  intro k _
  simp only [Function.comp_apply]
  omega

theorem nodup_intRange (a b : ℤ) : (intRange a b).Nodup := by
  unfold intRange
  exact (List.nodup_range _).map (fun x y h => by omega)

/-! ### Basic lemmas about `runRows` -/

theorem runRows_unmasked (P : Params) (ix : ℤ) {c r : ℤ}
    (h : P.mask c r = false) :
    ∀ (ys : List ℤ) (s : Grid × ℚ), (runRows P ix ys s).1 c r = s.1 c r := by
  intro ys
  induction ys with
  | nil => intro s; rfl
  | cons iy rest ih =>
    intro s
    by_cases hm : P.mask ix iy
    · rw [runRows, if_pos hm, ih]
      show setCell s.1 ix iy _ c r = s.1 c r
      unfold setCell
      rw [if_neg]
      rintro ⟨rfl, rfl⟩
      rw [hm] at h
      exact Bool.true_eq_false.mp h
    · rw [runRows, if_neg hm, ih]

theorem runRows_writes (P : Params) (ix : ℤ) {c r : ℤ} :
    ∀ (ys : List ℤ) (s : Grid × ℚ), (c ≠ ix ∨ r ∉ ys) →
      (runRows P ix ys s).1 c r = s.1 c r := by
  intro ys
  induction ys with
  | nil => intro s _; rfl
  | cons iy rest ih =>
    intro s h
    have h' : c ≠ ix ∨ r ∉ rest := by
      rcases h with h | h
      · exact Or.inl h
      · exact Or.inr fun hr => h (List.mem_cons_of_mem _ hr)
    by_cases hm : P.mask ix iy
    · rw [runRows, if_pos hm, ih _ h']
      show setCell s.1 ix iy _ c r = s.1 c r
      unfold setCell
      rw [if_neg]
      rintro ⟨rfl, rfl⟩
      rcases h with h | h
      · exact h rfl
      · exact h (List.mem_cons_self _ _)
    · rw [runRows, if_neg hm, ih _ h']

theorem runRows_fst_indep (P : Params) (ix : ℤ) :
    ∀ (ys : List ℤ) (g : Grid) (m m' : ℚ),
      (runRows P ix ys (g, m)).1 = (runRows P ix ys (g, m')).1 := by
  intro ys
  induction ys with
  | nil => intro g m m'; rfl
  | cons iy rest ih =>
    intro g m m'
    by_cases hm : P.mask ix iy
    · rw [runRows, if_pos hm, runRows, if_pos hm]
      exact ih _ _ _
    · rw [runRows, if_neg hm, runRows, if_neg hm]
      exact ih _ _ _

theorem runRows_snd_mono (P : Params) (ix : ℤ) :
    ∀ (ys : List ℤ) (g : Grid) (m : ℚ), m ≤ (runRows P ix ys (g, m)).2 := by
  intro ys
  induction ys with
  | nil => intro g m; exact le_rfl
  | cons iy rest ih =>
    intro g m
    by_cases hm : P.mask ix iy
    · rw [runRows, if_pos hm]
      exact le_trans (le_max_left _ _) (ih _ _)
    · rw [runRows, if_neg hm]
      exact ih _ _

theorem runRows_snd_max (P : Params) (ix : ℤ) :
    ∀ (ys : List ℤ) (g : Grid) (m : ℚ), 0 ≤ m →
      (runRows P ix ys (g, m)).2 = max m (runRows P ix ys (g, 0)).2 := by
  intro ys
  induction ys with
  | nil =>
    intro g m hm
    exact (max_eq_left hm).symm
  | cons iy rest ih =>
    intro g m hm
    by_cases hmask : P.mask ix iy
    · rw [runRows, if_pos hmask, runRows, if_pos hmask]
      unfold cell_fill
      have habs : (0:ℚ) ≤ |residual P g ix iy| := abs_nonneg _
      rw [ih _ _ (le_trans hm (le_max_left _ _)),
          ih _ _ (le_trans habs (le_max_right _ _)),
          max_eq_right habs, ← max_assoc]
    · rw [runRows, if_neg hmask, runRows, if_neg hmask]
      exact ih _ _ hm

/-! ### Lemmas about `maxList` -/

theorem le_foldl_max (a : ℚ) : ∀ (l : List ℚ), a ≤ l.foldl max a := by
  intro l
  induction l generalizing a with
  | nil => exact le_rfl
  | cons x xs ih =>
    exact le_trans (le_max_left a x) (ih (max a x))

theorem mem_le_foldl_max {x : ℚ} (a : ℚ) :
    ∀ (l : List ℚ), x ∈ l → x ≤ l.foldl max a := by
  intro l
  induction l generalizing a with
  | nil => intro h; exact absurd h (List.not_mem_nil x)
  | cons y ys ih =>
    intro h
    rcases List.mem_cons.mp h with rfl | h
    · exact le_trans (le_max_right a x) (le_foldl_max _ _)
    · exact ih _ h

theorem le_maxList {x : ℚ} {l : List ℚ} (h : x ∈ l) : x ≤ maxList l := by
  match l with
  | [] => exact absurd h (List.not_mem_nil x)
  | y :: ys =>
    rcases List.mem_cons.mp h with rfl | h
    · exact le_foldl_max _ _
    · exact mem_le_foldl_max _ _ h

theorem maxList_mem : ∀ (l : List ℚ), l ≠ [] → maxList l ∈ l := by
  have key : ∀ (xs : List ℚ) (x : ℚ), xs.foldl max x ∈ x :: xs := by
    intro xs
    induction xs with
    | nil => intro x; exact List.mem_cons_self _ _
    | cons y ys ih =>
      intro x
      rcases List.mem_cons.mp (ih (max x y)) with h | h
      · rcases max_choice x y with h' | h'
        · rw [List.foldl_cons, h, h']
          exact List.mem_cons_self _ _
        · rw [List.foldl_cons, h, h']
          exact List.mem_cons_of_mem _ (List.mem_cons_self _ _)
      · exact List.mem_cons_of_mem _ (List.mem_cons_of_mem _ h)
  intro l hl
  match l with
  | [] => exact absurd rfl hl
  | x :: xs => exact key xs x

/-! ### Claim C1: semantics of one relaxation sweep -/

/-- Claim C1: at a cell flagged by the mask, the sweep adds
`relaxationFactor * (0.25 * (left + right + below + above) - current)` to the
cell and folds the absolute residual into the worker's running maximum; a
cell not flagged by the mask is skipped, and a full sweep leaves every
unflagged cell untouched; the multi-band sweep returns the maximum of the
per-band residual maxima (`*max_element`): every band's maximum is `≤` the
returned value and the returned value is one of the bands' maxima. -/
theorem c1_sweep_semantics (P : Params) (g : Grid) (m : ℚ) (ix iy : ℤ)
    (rest : List ℤ) (yS yE : ℤ) (B : Bands) (L : List (ℤ × ℕ)) :
    (P.mask ix iy = true →
      runRows P ix (iy :: rest) (g, m) =
        runRows P ix rest
          (setCell g ix iy (g ix iy +
            P.relax * ((1 / 4 : ℚ) *
              (g (ix0 P.isCircle P.xSize ix) iy + g (ix1 P.isCircle P.xSize ix) iy +
               g ix (iy0 iy) + g ix (iy1 P.ySize iy)) - g ix iy)),
           max m |P.relax * ((1 / 4 : ℚ) *
              (g (ix0 P.isCircle P.xSize ix) iy + g (ix1 P.isCircle P.xSize ix) iy +
               g ix (iy0 iy) + g ix (iy1 P.ySize iy)) - g ix iy)|))
    ∧ (P.mask ix iy = false →
      runRows P ix (iy :: rest) (g, m) = runRows P ix rest (g, m))
    ∧ (∀ c r, P.mask c r = false → (worker P yS yE g).1 c r = g c r)
    ∧ (∀ b, b < B.nb →
        (runSchedule P B L g).2 b ≤ (gauss_seidel_par P B L g).2)
    ∧ (1 ≤ B.nb →
        ∃ b, b < B.nb ∧ (gauss_seidel_par P B L g).2 = (runSchedule P B L g).2 b) := by
  have hres : residual P g ix iy =
      P.relax * ((1 / 4 : ℚ) *
        (g (ix0 P.isCircle P.xSize ix) iy + g (ix1 P.isCircle P.xSize ix) iy +
         g ix (iy0 iy) + g ix (iy1 P.ySize iy)) - g ix iy) := by
    unfold residual
    ring
  refine ⟨fun h => ?_, fun h => ?_, fun c r h => ?_, fun b hb => ?_, fun hnb => ?_⟩
  · rw [runRows, if_pos h]
    unfold cell_fill
    rw [hres]
  · rw [runRows, if_neg (by rw [h]; exact Bool.false_ne_true)]
  · unfold worker
    have key : ∀ (cols : List ℤ) (s : Grid × ℚ), s.1 c r = g c r →
        (cols.foldl (fun s ix => runRows P ix (intRange yS yE) s) s).1 c r = g c r := by
      intro cols
      induction cols with
      | nil => exact fun s hs => hs
      | cons i is ih =>
        intro s hs
        rw [List.foldl_cons]
        refine ih _ ?_
        rw [runRows_unmasked P i h]
        exact hs
    exact key _ _ rfl
  · apply le_maxList
    exact List.mem_map.mpr ⟨b, List.mem_range.mpr hb, rfl⟩
  · have hne : (List.range B.nb).map (runSchedule P B L g).2 ≠ [] := by
      simp only [ne_eq, List.map_eq_nil_iff, List.range_eq_nil]
      omega
    have hmem := maxList_mem _ hne
    rcases List.mem_map.mp hmem with ⟨b, hb, hval⟩
    exact ⟨b, List.mem_range.mp hb, hval.symm⟩

/-- Witness for C1: on a concrete 2×2 grid with only cell (0,0) masked, the
sweep leaves the unmasked cell (1,1) untouched. -/
theorem c1_sweep_semantics_witness :
    (Params.mask ⟨2, 2, false, 1, fun a b => a = 0 && b = 0⟩ 1 1 = false) ∧
    (worker ⟨2, 2, false, 1, fun a b => a = 0 && b = 0⟩ 0 2
        (fun _ _ => 3)).1 1 1 = (fun _ _ => (3:ℚ)) 1 1 :=
  ⟨by decide,
   (c1_sweep_semantics ⟨2, 2, false, 1, fun a b => a = 0 && b = 0⟩
      (fun _ _ => 3) 0 0 0 [] 0 2 ⟨1, fun _ => 0⟩ []).2.2.1 1 1 (by decide)⟩

/-- Claim C3: along the wrap-capable axis, when `isCircularXAxis` is true the
left neighbor of index 0 is the last index and the right neighbor of the last
index is 0; when false, the boundary's missing neighbor is replaced by the
single interior neighbor (1 at the low edge, `size - 2` at the high edge);
interior cells use `ix - 1`/`ix + 1`; along the y-axis boundaries are always
clamped to the nearest interior neighbor, independently of the circularity
flag (which `iy0`/`iy1` do not even receive). -/
theorem c3_neighbor_indexing (cir : Bool) (xS yS ix iy : ℤ) :
    (cir = true → ix0 cir xS 0 = xS - 1 ∧ ix1 cir xS (xS - 1) = 0)
    ∧ (cir = false → ix0 cir xS 0 = 1 ∧ ix1 cir xS (xS - 1) = xS - 2)
    ∧ (ix ≠ 0 → ix0 cir xS ix = ix - 1)
    ∧ (ix ≠ xS - 1 → ix1 cir xS ix = ix + 1)
    ∧ (iy0 0 = 1 ∧ iy1 yS (yS - 1) = yS - 2)
    ∧ (iy ≠ 0 → iy0 iy = iy - 1)
    ∧ (iy ≠ yS - 1 → iy1 yS iy = iy + 1) := by
  unfold ix0 ix1 iy0 iy1
  refine ⟨fun h => ?_, fun h => ?_, fun h => ?_, fun h => ?_,
    ⟨by simp, by simp⟩, fun h => ?_, fun h => ?_⟩ <;>
      simp [h] <;> split_ifs <;> omega

/-- Witness for C3 at a concrete circular 5-wide, 4-tall grid. -/
theorem c3_neighbor_indexing_witness :
    ix0 true 5 0 = 5 - 1 ∧ ix1 true 5 (5 - 1) = 0 :=
  (c3_neighbor_indexing true 5 4 0 0).1 rfl

/-- Claim C10: when both sizes are at least 2, every neighbor index used by a
sweep lies inside the grid; with extent 1 along the (non-circular) x-axis or
extent 1 along the y-axis, the computed neighbor indices (1 at the low edge
and `size - 2 = -1` at the high edge) fall outside the grid. -/
theorem c10_neighbor_bounds (cir : Bool) (xS yS ix iy : ℤ) :
    (2 ≤ xS → 0 ≤ ix → ix < xS →
      (0 ≤ ix0 cir xS ix ∧ ix0 cir xS ix < xS) ∧
      (0 ≤ ix1 cir xS ix ∧ ix1 cir xS ix < xS))
    ∧ (2 ≤ yS → 0 ≤ iy → iy < yS →
      (0 ≤ iy0 iy ∧ iy0 iy < yS) ∧ (0 ≤ iy1 yS iy ∧ iy1 yS iy < yS))
    ∧ (xS = 1 → cir = false → ix1 cir xS 0 < 0 ∧ ¬ ix0 cir xS 0 < xS)
    ∧ (yS = 1 → iy1 yS 0 < 0 ∧ ¬ iy0 0 < yS) := by
  unfold ix0 ix1 iy0 iy1
  refine ⟨?_, ?_, ?_, ?_⟩
  · intro h2 h0 hlt
    rcases cir <;> split_ifs <;> simp_all <;> omega
  · intro h2 h0 hlt
    split_ifs <;> simp_all <;> omega
  · intro h1 hcir
    subst h1 hcir
    norm_num
  · intro h1
    subst h1
    norm_num

/-- Witness for C10 on a 3×3 grid: the interior-cell neighbor indices of
column 0 are in bounds. -/
theorem c10_neighbor_bounds_witness :
    (0 ≤ ix0 false 3 0 ∧ ix0 false 3 0 < 3) ∧
    (0 ≤ ix1 false 3 0 ∧ ix1 false 3 0 < 3) :=
  (c10_neighbor_bounds false 3 3 0 0).1 (by norm_num) le_rfl (by norm_num)

theorem nthGrid_shift (P : Params) (g : Grid) :
    ∀ n, nthGrid P (sweep P g).1 n = nthGrid P g (n + 1) := by
  intro n
  induction n with
  | zero => rfl
  | succ n ih => rw [nthGrid, ih]; rfl

theorem nthRes_shift (P : Params) (g : Grid) (n : ℕ) :
    nthRes P (sweep P g).1 n = nthRes P g (n + 1) := by
  unfold nthRes
  rw [nthGrid_shift]

/-! ### Claim C4: the convergence control loop -/

theorem sweepLoop_spec (P : Params) (eps : ℚ) :
    ∀ (fuel iter : ℕ) (mr : ℚ) (g : Grid), 0 < fuel →
      iter < (sweepLoop P eps fuel iter mr g).1 ∧
      (sweepLoop P eps fuel iter mr g).1 ≤ iter + fuel ∧
      (sweepLoop P eps fuel iter mr g).2.1 =
        nthRes P g ((sweepLoop P eps fuel iter mr g).1 - iter - 1) ∧
      (sweepLoop P eps fuel iter mr g).2.2 =
        nthGrid P g ((sweepLoop P eps fuel iter mr g).1 - iter) ∧
      ((sweepLoop P eps fuel iter mr g).2.1 < eps ∨
        (sweepLoop P eps fuel iter mr g).1 = iter + fuel) ∧
      (∀ k, k + 1 < (sweepLoop P eps fuel iter mr g).1 - iter →
        eps ≤ nthRes P g k) := by
  intro fuel
  induction fuel with
  | zero => intro iter mr g h; exact absurd h (lt_irrefl 0)
  | succ fuel ih =>
    intro iter mr g _
    by_cases hc : (sweep P g).2 < eps
    · have hres : sweepLoop P eps (fuel + 1) iter mr g =
          (iter + 1, (sweep P g).2, (sweep P g).1) := by
        rw [sweepLoop, if_pos hc]
      rw [hres]
      refine ⟨Nat.lt_succ_self _, by omega, ?_, ?_, Or.inl hc, ?_⟩
      · show (sweep P g).2 = nthRes P g (iter + 1 - iter - 1)
        have harg : iter + 1 - iter - 1 = 0 := by omega
        rw [harg]
        rfl
      · show (sweep P g).1 = nthGrid P g (iter + 1 - iter)
        have harg : iter + 1 - iter = 1 := by omega
        rw [harg]
        rfl
      · intro k hk
        omega
    · cases fuel with
      | zero =>
        have hres : sweepLoop P eps (0 + 1) iter mr g =
            (iter + 1, (sweep P g).2, (sweep P g).1) := by
          rw [sweepLoop, if_neg hc]
          rfl
        rw [hres]
        refine ⟨Nat.lt_succ_self _, by omega, ?_, ?_, Or.inr (by omega), ?_⟩
        · show (sweep P g).2 = nthRes P g (iter + 1 - iter - 1)
          have harg : iter + 1 - iter - 1 = 0 := by omega
          rw [harg]
          rfl
        · show (sweep P g).1 = nthGrid P g (iter + 1 - iter)
          have harg : iter + 1 - iter = 1 := by omega
          rw [harg]
          rfl
        · intro k hk
          omega
      | succ fuel' =>
        have step : sweepLoop P eps (fuel' + 1 + 1) iter mr g =
            sweepLoop P eps (fuel' + 1) (iter + 1) (sweep P g).2 (sweep P g).1 := by
          rw [sweepLoop, if_neg hc]
        obtain ⟨h1, h2, h3, h4, h5, h6⟩ :=
          ih (iter + 1) (sweep P g).2 (sweep P g).1 (Nat.succ_pos _)
        rw [step]
        generalize hn :
          (sweepLoop P eps (fuel' + 1) (iter + 1) (sweep P g).2 (sweep P g).1).1 = n
          at h1 h2 h3 h4 h5 h6 ⊢
        refine ⟨by omega, by omega, ?_, ?_, ?_, ?_⟩
        · rw [h3, nthRes_shift]
          have harg : n - (iter + 1) - 1 + 1 = n - iter - 1 := by omega
          rw [harg]
        · rw [h4, nthGrid_shift]
          have harg : n - (iter + 1) + 1 = n - iter := by omega
          rw [harg]
        · rcases h5 with h | h
          · exact Or.inl h
          · exact Or.inr (by omega)
        · intro k hk
          match k with
          | 0 => exact not_lt.mp hc
          | k' + 1 =>
            rw [← nthRes_shift]
            exact h6 k' (by omega)

/-- Claim C4: when the grid has at least one undefined cell, the fill call
performs sweeps, incrementing the iteration counter, and stops as soon as a
sweep's residual is strictly below `eps` or the counter reaches
`maxIterations`; it returns (normally — the function is total) the achieved
pair of iterations performed and final residual, and its output grid holds
the corresponding iterate. -/
theorem c4_convergence_loop (G : GridData) (fg : FirstGuess) (isCircle : Bool)
    (maxIterations : ℕ) (eps relax : ℚ)
    (hnan : hasNaN G = true) (hpos : 0 < maxIterations) :
    0 < (fill_gauss_seidel G fg isCircle maxIterations eps relax).1.1 ∧
    (fill_gauss_seidel G fg isCircle maxIterations eps relax).1.1 ≤ maxIterations ∧
    (fill_gauss_seidel G fg isCircle maxIterations eps relax).1.2 =
      nthRes (fillParams G isCircle relax) (first_guess_grid G fg)
        ((fill_gauss_seidel G fg isCircle maxIterations eps relax).1.1 - 1) ∧
    ((fill_gauss_seidel G fg isCircle maxIterations eps relax).1.2 < eps ∨
      (fill_gauss_seidel G fg isCircle maxIterations eps relax).1.1 = maxIterations) ∧
    (∀ k, k + 1 < (fill_gauss_seidel G fg isCircle maxIterations eps relax).1.1 →
      eps ≤ nthRes (fillParams G isCircle relax) (first_guess_grid G fg) k) ∧
    (∀ ix iy, 0 ≤ ix → ix < G.xSize → 0 ≤ iy → iy < G.ySize →
      (fill_gauss_seidel G fg isCircle maxIterations eps relax).2.val ix iy =
        some (nthGrid (fillParams G isCircle relax) (first_guess_grid G fg)
          ((fill_gauss_seidel G fg isCircle maxIterations eps relax).1.1) ix iy)) := by
  obtain ⟨h1, h2, h3, h4, h5, h6⟩ :=
    sweepLoop_spec (fillParams G isCircle relax) eps maxIterations 0 0
      (first_guess_grid G fg) hpos
  simp only [fill_gauss_seidel, if_pos hnan]
  rw [Nat.sub_zero] at h4
  refine ⟨h1, by omega, ?_, ?_, ?_, ?_⟩
  · rw [h3]
    have harg : (sweepLoop (fillParams G isCircle relax) eps maxIterations 0 0
        (first_guess_grid G fg)).1 - 0 - 1 =
        (sweepLoop (fillParams G isCircle relax) eps maxIterations 0 0
          (first_guess_grid G fg)).1 - 1 := by omega
    rw [harg]
  · rcases h5 with h | h
    · exact Or.inl h
    · exact Or.inr (by omega)
  · intro k hk
    exact h6 k (by omega)
  · intro ix iy hx0 hx1 hy0 hy1
    rw [if_pos ⟨hx0, hx1, hy0, hy1⟩, h4]

/-- Witness for C4 at the concrete 5×5 grid of claim C6. -/
theorem c4_convergence_loop_witness :
    (fill_gauss_seidel gridC6 FirstGuess.kZero false 50 (1 / 1000000) 1).1.1 ≤ 50 :=
  (c4_convergence_loop gridC6 FirstGuess.kZero false 50 (1 / 1000000) 1
    (by decide) (by decide)).2.1

/-! ### Claim C5: the no-NaN fast path -/

/-- Claim C5: a grid with no undefined cell short-circuits — the fill call
returns (0, 0) and the grid completely unchanged, with no seeding and no
sweep performed. -/
theorem c5_no_nan_fast_path (G : GridData) (fg : FirstGuess) (isCircle : Bool)
    (maxIterations : ℕ) (eps relax : ℚ)
    (h : ∀ ix iy, 0 ≤ ix → ix < G.xSize → 0 ≤ iy → iy < G.ySize →
      G.val ix iy ≠ none) :
    fill_gauss_seidel G fg isCircle maxIterations eps relax = ((0, 0), G) := by
  have hnan : hasNaN G = false := by
    unfold hasNaN
    rw [List.any_eq_false]
    intro ix hix
    rw [Bool.not_eq_true, List.any_eq_false]
    intro iy hiy
    rw [mem_intRange] at hix hiy
    have hcell := h ix iy hix.1 hix.2 hiy.1 hiy.2
    cases hval : G.val ix iy with
    | none => exact absurd hval hcell
    | some v => simp
  unfold fill_gauss_seidel
  rw [if_neg]
  rw [hnan]
  exact Bool.false_ne_true

/-- Witness for C5 at a concrete fully-defined 2×2 grid. -/
theorem c5_no_nan_fast_path_witness :
    fill_gauss_seidel ⟨2, 2, fun _ _ => some 1⟩ FirstGuess.kZero false 10
      (1 / 100) 1 = ((0, 0), ⟨2, 2, fun _ _ => some 1⟩) :=
  c5_no_nan_fast_path ⟨2, 2, fun _ _ => some 1⟩ FirstGuess.kZero false 10
    (1 / 100) 1 (fun ix iy _ _ _ _ => by simp)

/-! ### Claim C6: the 5×5 example scenario

On `gridC6` with first guess Zero and relaxation 1, the first sweep writes
`0.25 * (1 + 1 + 1 + 1) = 1` into the seeded center cell and returns residual
1, which is not below the tolerance `1e-6`; the loop therefore runs a second
sweep, which observes residual 0 and stops.  The code thus converges in 2
iterations, not 1 as the claim states. -/

/-- Counterexample to C6 as stated: at exactly the claimed input the number
of iterations performed is not 1. -/
theorem c6_counterexample :
    (fill_gauss_seidel gridC6 FirstGuess.kZero false 50 (1 / 1000000) 1).1.1 ≠ 1 :=
  of_decide_eq_true (by with_unfolding_all rfl)

/-- Claim C6 amended: the call converges in 2 iterations (the first sweep
already writes the exact solution; the second observes residual 0), the
final residual 0 is below the tolerance, and the center cell holds 1.0. -/
theorem c6_amended :
    (fill_gauss_seidel gridC6 FirstGuess.kZero false 50 (1 / 1000000) 1).1.1 = 2 ∧
    (fill_gauss_seidel gridC6 FirstGuess.kZero false 50 (1 / 1000000) 1).1.2 = 0 ∧
    (fill_gauss_seidel gridC6 FirstGuess.kZero false 50 (1 / 1000000) 1).1.2
      < 1 / 1000000 ∧
    (fill_gauss_seidel gridC6 FirstGuess.kZero false 50 (1 / 1000000) 1).2.val 2 2
      = some 1 :=
  ⟨of_decide_eq_true (by with_unfolding_all rfl),
   of_decide_eq_true (by with_unfolding_all rfl),
   of_decide_eq_true (by with_unfolding_all rfl),
   of_decide_eq_true (by with_unfolding_all rfl)⟩

/-! ### Claim C7: the zonal-average first guess -/

/-- Claim C7: along each line of the non-wrap axis, the zonal-average first
guess keeps every defined cell and assigns to every undefined cell the mean
of the line's defined cells — zero when the line has no defined cell. -/
theorem c7_zonal_average (G : GridData) (iy : ℤ) :
    (∀ ix v, G.val ix iy = some v → set_zonal_average G ix iy = v)
    ∧ (∀ ix, G.val ix iy = none →
        set_zonal_average G ix iy =
          if definedLine G iy = [] then 0
          else (definedLine G iy).sum / ((definedLine G iy).length : ℚ)) := by
  have hacc : ∀ (l : List ℤ) (a : ℕ × ℚ),
      l.foldl (fun a ix =>
          match G.val ix iy with
          | some v => (a.1 + 1, a.2 + v)
          | none => a) a
        = (a.1 + (l.filterMap fun ix => G.val ix iy).length,
           a.2 + (l.filterMap fun ix => G.val ix iy).sum) := by
    intro l
    induction l with
    | nil => intro a; simp
    | cons x xs ih =>
      intro a
      rw [List.foldl_cons]
      cases hval : G.val x iy with
      | none =>
        rw [ih, List.filterMap_cons]
        simp [hval]
      | some v =>
        rw [ih, List.filterMap_cons]
        simp only [hval, List.length_cons, List.sum_cons, Prod.mk.injEq]
        refine ⟨by omega, by ring⟩
  constructor
  · intro ix v hv
    unfold set_zonal_average
    rw [hv]
  · intro ix hv
    show (match G.val ix iy with
      | some v => v
      | none => first_guess_line G iy) = _
    rw [hv]
    show first_guess_line G iy = _
    unfold first_guess_line lineAcc
    rw [hacc]
    simp only [Nat.zero_add, zero_add]
    unfold definedLine
    by_cases hd : (intRange 0 G.xSize).filterMap (fun ix => G.val ix iy) = []
    · rw [if_pos hd, if_pos (by rw [hd]; rfl)]
    · rw [if_neg hd, if_neg (fun hlen => hd (List.length_eq_zero.mp hlen))]

/-- Witness for C7 on a 2-cell line with one defined cell of value 3. -/
theorem c7_zonal_average_witness :
    set_zonal_average ⟨2, 1, fun ix iy => if ix = 0 ∧ iy = 0 then some 3 else none⟩
      1 0 = 3 := by
  rw [(c7_zonal_average
    ⟨2, 1, fun ix iy => if ix = 0 ∧ iy = 0 then some 3 else none⟩ 0).2 1 (by decide)]
  exact of_decide_eq_true (by with_unfolding_all rfl)

/-! ### Claim C2: the pipelined execution equals the sequential sweep

Outline: any admissible schedule is a linear extension of the product order
on work units; incomparable units act on disjoint grid cells and distinct
residual slots, hence commute; therefore every admissible schedule computes
the same state as the column-major reference schedule `lexUnits`, which in
turn performs the cell updates in exactly the single-threaded order. -/

theorem intRange_self (a : ℤ) : intRange a a = [] := by
  unfold intRange
  simp

theorem runRows_append (P : Params) (ix : ℤ) :
    ∀ (ys₁ ys₂ : List ℤ) (s : Grid × ℚ),
      runRows P ix (ys₁ ++ ys₂) s = runRows P ix ys₂ (runRows P ix ys₁ s) := by
  intro ys₁
  induction ys₁ with
  | nil => intro ys₂ s; rfl
  | cons iy rest ih =>
    intro ys₂ s
    by_cases hm : P.mask ix iy
    · rw [List.cons_append, runRows, if_pos hm, runRows, if_pos hm, ih]
    · rw [List.cons_append, runRows, if_neg hm, runRows, if_neg hm, ih]

theorem runRows_fst_state (P : Params) (ix : ℤ) :
    ∀ (ys : List ℤ) (s : Grid × ℚ) (m' : ℚ),
      (runRows P ix ys s).1 = (runRows P ix ys (s.1, m')).1 := by
  intro ys
  induction ys with
  | nil => intro s m'; rfl
  | cons iy rest ih =>
    intro s m'
    by_cases hm : P.mask ix iy
    · rw [runRows, if_pos hm, runRows, if_pos hm]
      rw [ih (cell_fill P s ix iy) 0, ih (cell_fill P (s.1, m') ix iy) 0]
      rfl
    · rw [runRows, if_neg hm, runRows, if_neg hm]
      exact ih s m'

theorem runRows_snd_state (P : Params) (ix : ℤ) (ys : List ℤ) (s : Grid × ℚ)
    (h : 0 ≤ s.2) :
    (runRows P ix ys s).2 = max s.2 (runRows P ix ys (s.1, 0)).2 :=
  runRows_snd_max P ix ys s.1 s.2 h

/-- Agreement of two grids on the cells a column run can read propagates to
agreement of the results on those cells, with identical residual
accumulation.  The region is "column `ix`, plus every row satisfying `S`";
the run only requires the rows it visits to satisfy `S`. -/
theorem runRows_congr (P : Params) (ix : ℤ) (S : ℤ → Prop) :
    ∀ (ys : List ℤ) (g₁ g₂ : Grid) (m : ℚ),
      (∀ iy ∈ ys, S iy) →
      (∀ c r, c = ix ∨ S r → g₁ c r = g₂ c r) →
      (∀ c r, c = ix ∨ S r →
        (runRows P ix ys (g₁, m)).1 c r = (runRows P ix ys (g₂, m)).1 c r)
      ∧ (runRows P ix ys (g₁, m)).2 = (runRows P ix ys (g₂, m)).2 := by
  intro ys
  induction ys with
  | nil => intro g₁ g₂ m _ h; exact ⟨fun c r hcr => h c r hcr, rfl⟩
  | cons iy rest ih =>
    intro g₁ g₂ m hys h
    have hSiy : S iy := hys iy (List.mem_cons_self _ _)
    have hresid : residual P g₁ ix iy = residual P g₂ ix iy := by
      unfold residual
      rw [h (ix0 P.isCircle P.xSize ix) iy (Or.inr hSiy),
          h (ix1 P.isCircle P.xSize ix) iy (Or.inr hSiy),
          h ix (iy0 iy) (Or.inl rfl), h ix (iy1 P.ySize iy) (Or.inl rfl),
          h ix iy (Or.inl rfl)]
    by_cases hm : P.mask ix iy
    · rw [runRows, if_pos hm, runRows, if_pos hm]
      have hnew : ∀ c r, c = ix ∨ S r →
          setCell g₁ ix iy (g₁ ix iy + residual P g₁ ix iy) c r =
            setCell g₂ ix iy (g₂ ix iy + residual P g₂ ix iy) c r := by
        intro c r hcr
        unfold setCell
        by_cases hc : c = ix ∧ r = iy
        · rw [if_pos hc, if_pos hc, h ix iy (Or.inl rfl), hresid]
        · rw [if_neg hc, if_neg hc, h c r hcr]
      obtain ⟨ih1, ih2⟩ := ih (setCell g₁ ix iy (g₁ ix iy + residual P g₁ ix iy))
        (setCell g₂ ix iy (g₂ ix iy + residual P g₂ ix iy))
        (max m |residual P g₁ ix iy|)
        (fun y hy => hys y (List.mem_cons_of_mem _ hy)) hnew
      have hpair : cell_fill P (g₂, m) ix iy =
          (setCell g₂ ix iy (g₂ ix iy + residual P g₂ ix iy),
           max m |residual P g₁ ix iy|) := by
        unfold cell_fill
        rw [hresid]
      rw [hpair]
      exact ⟨fun c r hcr => ih1 c r hcr, ih2⟩
    · rw [runRows, if_neg hm, runRows, if_neg hm]
      exact ih g₁ g₂ m (fun y hy => hys y (List.mem_cons_of_mem _ hy)) h

/-- Rows of distinct bands are disjoint. -/
theorem bandRows_disjoint (B : Bands)
    (hmono : ∀ i j : ℕ, i ≤ j → B.cut i ≤ B.cut j) {b b' : ℕ} (hne : b ≠ b') :
    ∀ r : ℤ, r ∈ bandRows B b → r ∉ bandRows B b' := by
  intro r hr hr'
  rw [bandRows, mem_intRange] at hr hr'
  rcases Nat.lt_or_ge b b' with h | h
  · have hcut : B.cut (b + 1) ≤ B.cut b' := hmono _ _ h
    omega
  · have hlt : b' < b := lt_of_le_of_ne h (Ne.symm hne)
    have hcut : B.cut (b' + 1) ≤ B.cut b := hmono _ _ hlt
    omega

/-- Work units with distinct columns and distinct bands commute: their writes
are disjoint from each other's reads and writes, and they accumulate into
distinct residual slots. -/
theorem act_comm (P : Params) (B : Bands)
    (hmono : ∀ i j : ℕ, i ≤ j → B.cut i ≤ B.cut j)
    (u v : ℤ × ℕ) (hcol : u.1 ≠ v.1) (hband : u.2 ≠ v.2) (s : Grid × (ℕ → ℚ)) :
    act P B u (act P B v s) = act P B v (act P B u s) := by
  have hdisj : ∀ r : ℤ, r ∈ bandRows B u.2 → r ∉ bandRows B v.2 :=
    bandRows_disjoint B hmono hband
  have hdisj' : ∀ r : ℤ, r ∈ bandRows B v.2 → r ∉ bandRows B u.2 :=
    bandRows_disjoint B hmono (Ne.symm hband)
  simp only [act]
  rw [Function.update_noteq hband, Function.update_noteq (Ne.symm hband)]
  obtain ⟨hA1, hA2⟩ := runRows_congr P u.1 (fun r => r ∉ bandRows B v.2)
    (bandRows B u.2)
    (runRows P v.1 (bandRows B v.2) (s.1, s.2 v.2)).1 s.1 (s.2 u.2)
    hdisj
    (fun c r hcr => runRows_writes P v.1 (bandRows B v.2) (s.1, s.2 v.2)
      (by rcases hcr with rfl | hr
          · exact Or.inl hcol
          · exact Or.inr hr))
  obtain ⟨hB1, hB2⟩ := runRows_congr P v.1 (fun r => r ∉ bandRows B u.2)
    (bandRows B v.2)
    (runRows P u.1 (bandRows B u.2) (s.1, s.2 u.2)).1 s.1 (s.2 v.2)
    hdisj'
    (fun c r hcr => runRows_writes P u.1 (bandRows B u.2) (s.1, s.2 u.2)
      (by rcases hcr with rfl | hr
          · exact Or.inl (Ne.symm hcol)
          · exact Or.inr hr))
  refine Prod.ext ?_ ?_
  · funext c r
    by_cases hcu : c = u.1
    · rw [hA1 c r (Or.inl hcu),
          runRows_writes P v.1 (bandRows B v.2)
            ((runRows P u.1 (bandRows B u.2) (s.1, s.2 u.2)).1, s.2 v.2)
            (Or.inl (hcu ▸ hcol))]
    · by_cases hcv : c = v.1
      · rw [runRows_writes P u.1 (bandRows B u.2)
            ((runRows P v.1 (bandRows B v.2) (s.1, s.2 v.2)).1, s.2 u.2)
            (Or.inl hcu),
            hB1 c r (Or.inl hcv)]
      · rw [runRows_writes P u.1 (bandRows B u.2)
            ((runRows P v.1 (bandRows B v.2) (s.1, s.2 v.2)).1, s.2 u.2)
            (Or.inl hcu),
            runRows_writes P v.1 (bandRows B v.2) (s.1, s.2 v.2) (Or.inl hcv),
            runRows_writes P v.1 (bandRows B v.2)
              ((runRows P u.1 (bandRows B u.2) (s.1, s.2 u.2)).1, s.2 v.2)
              (Or.inl hcv),
            runRows_writes P u.1 (bandRows B u.2) (s.1, s.2 u.2) (Or.inl hcu)]
  · funext k
    dsimp only
    by_cases hku : k = u.2
    · subst hku
      rw [Function.update_same, hA2, Function.update_noteq hband,
          Function.update_same]
    · by_cases hkv : k = v.2
      · subst hkv
        rw [Function.update_noteq hku, Function.update_same,
            Function.update_same, hB2]
      · rw [Function.update_noteq hku, Function.update_noteq hkv,
            Function.update_noteq hkv, Function.update_noteq hku]

/-- Units that are incomparable in the handshake order differ in both the
column and the band. -/
theorem incomparable_units {u v : ℤ × ℕ} (h1 : ¬ unitLT u v) (h2 : ¬ unitLT v u)
    (hne : u ≠ v) : u.1 ≠ v.1 ∧ u.2 ≠ v.2 := by
  unfold unitLT at h1 h2
  push_neg at h1 h2
  constructor
  · intro hc
    rcases le_total u.2 v.2 with h | h
    · exact hne (h1 (le_of_eq hc) h)
    · exact hne ((h2 (le_of_eq hc.symm) h).symm)
  · intro hc
    rcases le_total u.1 v.1 with h | h
    · exact hne (h1 h (le_of_eq hc))
    · exact hne ((h2 h (le_of_eq hc.symm)).symm)

/-- Bubbling a unit that commutes with everything before it to the front of
a fold. -/
theorem foldl_act_bubble {U S : Type} (act : U → S → S) (u : U) :
    ∀ (Pre Suf : List U) (s : S),
      (∀ a ∈ Pre, ∀ t, act u (act a t) = act a (act u t)) →
      (Pre ++ u :: Suf).foldl (fun s v => act v s) s =
        (Pre ++ Suf).foldl (fun s v => act v s) (act u s) := by
  intro Pre
  induction Pre with
  | nil => intro Suf s _; rfl
  | cons a Pre ih =>
    intro Suf s hcomm
    rw [List.cons_append, List.foldl_cons, List.cons_append, List.foldl_cons,
        ← hcomm a (List.mem_cons_self a _) s]
    exact ih Suf (act a s) (fun b hb t => hcomm b (List.mem_cons_of_mem _ hb) t)

/-- Determinacy: two linear extensions of a dependency order compute the
same fold when incomparable elements commute. -/
theorem foldl_act_perm {U S : Type} [DecidableEq U] (act : U → S → S)
    (lt : U → U → Prop) :
    ∀ (M : List U), M.Nodup →
      (∀ u ∈ M, ∀ v ∈ M, ¬ lt u v → ¬ lt v u → u ≠ v →
        ∀ t, act u (act v t) = act v (act u t)) →
      M.Pairwise (fun a b => ¬ lt b a) →
      ∀ (L : List U), L.Perm M → L.Pairwise (fun a b => ¬ lt b a) →
      ∀ s, L.foldl (fun s v => act v s) s = M.foldl (fun s v => act v s) s := by
  intro M
  induction M with
  | nil =>
    intro _ _ _ L hperm _ s
    rw [hperm.eq_nil]
  | cons u M ih =>
    intro hnod hcomm hMp L hperm hLp s
    have huL : u ∈ L := hperm.mem_iff.mpr (List.mem_cons_self u M)
    obtain ⟨Pre, Suf, rfl⟩ := List.append_of_mem huL
    have hLnod : (Pre ++ u :: Suf).Nodup := hperm.nodup_iff.mpr hnod
    have huPre : u ∉ Pre := fun hu =>
      List.disjoint_of_nodup_append hLnod hu (List.mem_cons_self u Suf)
    have hpre_comm : ∀ a ∈ Pre, ∀ t, act u (act a t) = act a (act u t) := by
      intro a ha t
      have haL : a ∈ Pre ++ u :: Suf := List.mem_append_left _ ha
      have haM : a ∈ u :: M := hperm.mem_iff.mp haL
      have hau : a ≠ u := fun h => huPre (h ▸ ha)
      have haM' : a ∈ M := by
        rcases List.mem_cons.mp haM with h | h
        · exact absurd h hau
        · exact h
      have h1 : ¬ lt u a := by
        rcases List.pairwise_append.mp hLp with ⟨_, _, hcross⟩
        exact hcross a ha u (List.mem_cons_self u Suf)
      have h2 : ¬ lt a u := (List.pairwise_cons.mp hMp).1 a haM'
      exact hcomm u (List.mem_cons_self u M) a (List.mem_cons_of_mem _ haM')
        h1 h2 (Ne.symm hau) t
    rw [foldl_act_bubble act u Pre Suf s hpre_comm, List.foldl_cons]
    refine ih (List.nodup_cons.mp hnod).2
      (fun a ha b hb => hcomm a (List.mem_cons_of_mem _ ha) b
        (List.mem_cons_of_mem _ hb))
      (List.pairwise_cons.mp hMp).2
      (Pre ++ Suf) ?_ ?_ (act u s)
    · exact ((List.perm_middle).symm.trans hperm).cons_inv
    · exact hLp.sublist
        (List.Sublist.append_left (List.sublist_cons_self u Suf) Pre)

theorem act_fst (P : Params) (B : Bands) (w : ℤ × ℕ) (t : Grid × (ℕ → ℚ)) :
    (act P B w t).1 = (runRows P w.1 (bandRows B w.2) (t.1, t.2 w.2)).1 := rfl

theorem act_snd_self (P : Params) (B : Bands) (w : ℤ × ℕ) (t : Grid × (ℕ → ℚ)) :
    (act P B w t).2 w.2 = (runRows P w.1 (bandRows B w.2) (t.1, t.2 w.2)).2 :=
  Function.update_same _ _ _

theorem act_snd_ne (P : Params) (B : Bands) (w : ℤ × ℕ) (t : Grid × (ℕ → ℚ))
    {b : ℕ} (h : b ≠ w.2) : (act P B w t).2 b = t.2 b :=
  Function.update_noteq h _ _

theorem foldl_flatMap {α β σ : Type} (f : σ → β → σ) (g : α → List β) :
    ∀ (l : List α) (s : σ),
      (l.flatMap g).foldl f s = l.foldl (fun s a => (g a).foldl f s) s := by
  intro l
  induction l with
  | nil => intro s; rfl
  | cons a l ih =>
    intro s
    rw [List.flatMap_cons, List.foldl_append, ih, List.foldl_cons]

theorem pairwise_flatMap_of {α β : Type} {R : β → β → Prop} {Rl : α → α → Prop}
    (f : α → List β)
    (hcross : ∀ a b, Rl a b → ∀ x ∈ f a, ∀ y ∈ f b, R x y) :
    ∀ (l : List α), l.Pairwise Rl → (∀ a ∈ l, (f a).Pairwise R) →
      (l.flatMap f).Pairwise R := by
  intro l
  induction l with
  | nil => intro _ _; exact List.Pairwise.nil
  | cons a l ih =>
    intro hl hin
    rw [List.flatMap_cons, List.pairwise_append]
    obtain ⟨ha, hl'⟩ := List.pairwise_cons.mp hl
    refine ⟨hin a (List.mem_cons_self _ _),
            ih hl' (fun b hb => hin b (List.mem_cons_of_mem _ hb)), ?_⟩
    intro x hx y hy
    rcases List.mem_flatMap.mp hy with ⟨b, hb, hyb⟩
    exact hcross a b (ha b hb) x hx y hyb

theorem lexUnits_nodup (P : Params) (B : Bands) : (lexUnits P B).Nodup := by
  unfold lexUnits
  show List.Pairwise (fun a b => a ≠ b) _
  refine @pairwise_flatMap_of ℤ (ℤ × ℕ) (fun a b => a ≠ b) (fun a b => a ≠ b)
    _ ?_ _ ?_ ?_
  · intro a b hab x hx y hy
    rcases List.mem_map.mp hx with ⟨b1, _, rfl⟩
    rcases List.mem_map.mp hy with ⟨b2, _, rfl⟩
    intro h
    exact hab (congrArg Prod.fst h)
  · exact nodup_intRange 0 P.xSize
  · intro a _
    exact (List.nodup_range B.nb).map
      (fun x y h => by simpa using congrArg Prod.snd h)

theorem lexUnits_admissible (P : Params) (B : Bands) :
    Admissible (lexUnits P B) := by
  unfold Admissible lexUnits
  refine @pairwise_flatMap_of ℤ (ℤ × ℕ) (fun u v => ¬ unitLT v u)
    (fun a b => a < b) _ ?_ _ ?_ ?_
  · intro a b hab x hx y hy
    rcases List.mem_map.mp hx with ⟨b1, _, rfl⟩
    rcases List.mem_map.mp hy with ⟨b2, _, rfl⟩
    intro hlt
    rcases hlt with ⟨h1, _, _⟩
    exact absurd (lt_of_lt_of_le hab h1) (lt_irrefl a)
  · unfold intRange
    exact (List.pairwise_lt_range _).map _ (fun x y h => by omega)
  · intro a _
    refine List.Pairwise.map _ ?_ (List.pairwise_lt_range B.nb)
    intro x y hxy hlt
    rcases hlt with ⟨_, h2, _⟩
    omega

theorem foldl_max_acc_le (ρ : ℕ → ℚ) :
    ∀ (l : List ℕ) (a : ℚ), a ≤ l.foldl (fun a b => max a (ρ b)) a := by
  intro l
  induction l with
  | nil => intro a; exact le_rfl
  | cons x xs ih =>
    intro a
    exact le_trans (le_max_left a (ρ x)) (ih (max a (ρ x)))

theorem fold_max_zero : ∀ n : ℕ,
    (List.range n).foldl (fun (a : ℚ) (_ : ℕ) => max a 0) 0 = 0 := by
  intro n
  induction n with
  | zero => rfl
  | succ n ih =>
    rw [List.range_succ, List.foldl_append, List.foldl_cons, List.foldl_nil,
        ih, max_self]

theorem fold_max_out (ρ : ℕ → ℚ) : ∀ (n : ℕ) (m : ℚ), 0 ≤ m →
    (List.range n).foldl (fun a b => max a (ρ b)) m =
      max m ((List.range n).foldl (fun a b => max a (ρ b)) 0) := by
  intro n
  induction n with
  | zero => intro m hm; exact (max_eq_left hm).symm
  | succ n ih =>
    intro m hm
    rw [List.range_succ, List.foldl_append, List.foldl_append, List.foldl_cons,
        List.foldl_nil, List.foldl_cons, List.foldl_nil, ih m hm, max_assoc]

theorem fold_max_merge (f g : ℕ → ℚ) : ∀ n : ℕ,
    (List.range n).foldl (fun a b => max a (max (f b) (g b))) 0 =
      max ((List.range n).foldl (fun a b => max a (f b)) 0)
        ((List.range n).foldl (fun a b => max a (g b)) 0) := by
  intro n
  induction n with
  | zero => exact (max_self 0).symm
  | succ n ih =>
    rw [List.range_succ, List.foldl_append, List.foldl_append, List.foldl_append,
        List.foldl_cons, List.foldl_nil, List.foldl_cons, List.foldl_nil,
        List.foldl_cons, List.foldl_nil, ih, max_max_max_comm]

theorem foldl_range_congr {α : Type} (f g : α → ℕ → α) :
    ∀ (n : ℕ) (a : α), (∀ x b, b < n → f x b = g x b) →
      (List.range n).foldl f a = (List.range n).foldl g a := by
  intro n
  induction n with
  | zero => intro a _; rfl
  | succ n ih =>
    intro a h
    rw [List.range_succ, List.foldl_append, List.foldl_append, List.foldl_cons,
        List.foldl_nil, List.foldl_cons, List.foldl_nil,
        ih a (fun x b hb => h x b (by omega)), h _ n (by omega)]

/-- The lexicographic schedule restricted to one column: running the bands
bottom-to-top at column `ix` computes the same grid as one full-height column
pass, and each band's residual slot accumulates its own column maximum. -/
theorem col_par (P : Params) (B : Bands)
    (hmono : ∀ i j : ℕ, i ≤ j → B.cut i ≤ B.cut j) (ix : ℤ) :
    ∀ (k : ℕ) (g : Grid) (ρ : ℕ → ℚ), (∀ b, 0 ≤ ρ b) →
      (((List.range k).foldl (fun t b => act P B (ix, b) t) (g, ρ)).1 =
        (runRows P ix (intRange (B.cut 0) (B.cut k)) (g, 0)).1)
      ∧ (∀ b, b < k →
          ((List.range k).foldl (fun t b => act P B (ix, b) t) (g, ρ)).2 b =
            max (ρ b) ((runRows P ix (bandRows B b)
              ((runRows P ix (intRange (B.cut 0) (B.cut b)) (g, 0)).1, 0)).2))
      ∧ (∀ b, k ≤ b →
          ((List.range k).foldl (fun t b => act P B (ix, b) t) (g, ρ)).2 b = ρ b) := by
  intro k
  induction k with
  | zero =>
    intro g ρ hρ
    refine ⟨?_, fun b hb => absurd hb (Nat.not_lt_zero b), fun b _ => rfl⟩
    rw [intRange_self]
    rfl
  | succ k ih =>
    intro g ρ hρ
    obtain ⟨ih1, ih2, ih3⟩ := ih g ρ hρ
    rw [List.range_succ, List.foldl_append, List.foldl_cons, List.foldl_nil]
    generalize hF : (List.range k).foldl (fun t b => act P B (ix, b) t) (g, ρ) = F
      at ih1 ih2 ih3
    refine ⟨?_, ?_, ?_⟩
    · rw [act_fst]
      dsimp only
      rw [runRows_fst_indep P ix (bandRows B k) F.1 (F.2 k) 0, ih1,
          intRange_append (hmono 0 k (Nat.zero_le k)) (hmono k (k + 1) (Nat.le_succ k)),
          runRows_append, bandRows,
          runRows_fst_state P ix (intRange (B.cut k) (B.cut (k + 1)))
            (runRows P ix (intRange (B.cut 0) (B.cut k)) (g, 0)) 0]
    · intro b hb
      rcases Nat.lt_or_ge b k with hbk | hbk
      · rw [act_snd_ne P B (ix, k) F (by omega : b ≠ k)]
        exact ih2 b hbk
      · have hbe : b = k := by omega
        subst hbe
        rw [act_snd_self]
        dsimp only
        rw [ih3 b (le_refl b),
            runRows_snd_max P ix (bandRows B b) F.1 (ρ b) (hρ b), ih1]
    · intro b hb
      rw [act_snd_ne P B (ix, k) F (by omega : b ≠ k)]
      exact ih3 b (by omega)

/-- One full-height column pass of the sequential worker, phrased as the
per-band chain of column maxima. -/
theorem col_seq (P : Params) (B : Bands)
    (hmono : ∀ i j : ℕ, i ≤ j → B.cut i ≤ B.cut j) (ix : ℤ) :
    ∀ (k : ℕ) (g : Grid) (m : ℚ), 0 ≤ m →
      (runRows P ix (intRange (B.cut 0) (B.cut k)) (g, m)).2 =
        (List.range k).foldl (fun a b =>
          max a ((runRows P ix (bandRows B b)
            ((runRows P ix (intRange (B.cut 0) (B.cut b)) (g, 0)).1, 0)).2)) m := by
  intro k
  induction k with
  | zero =>
    intro g m hm
    rw [intRange_self]
    rfl
  | succ k ih =>
    intro g m hm
    rw [intRange_append (hmono 0 k (Nat.zero_le k)) (hmono k (k + 1) (Nat.le_succ k)),
        runRows_append, List.range_succ, List.foldl_append, List.foldl_cons,
        List.foldl_nil,
        runRows_snd_state P ix (intRange (B.cut k) (B.cut (k + 1)))
          (runRows P ix (intRange (B.cut 0) (B.cut k)) (g, m))
          (le_trans hm (runRows_snd_mono P ix _ g m)),
        ih g m hm,
        runRows_fst_indep P ix (intRange (B.cut 0) (B.cut k)) g m 0,
        bandRows]

/-- The column-major reference schedule computes the single-threaded sweep:
same grid, and the per-band maxima join to the sweep's returned residual. -/
theorem sched_lex_eq_seq (P : Params) (B : Bands) (hv : validBands P B)
    (g : Grid) :
    (runSchedule P B (lexUnits P B) g).1 = (worker P 0 P.ySize g).1
    ∧ (List.range B.nb).foldl
        (fun a b => max a ((runSchedule P B (lexUnits P B) g).2 b)) 0 =
        (worker P 0 P.ySize g).2
    ∧ (∀ b, 0 ≤ (runSchedule P B (lexUnits P B) g).2 b) := by
  obtain ⟨hnb, h0, hN, hmono⟩ := hv
  have hrange : intRange 0 P.ySize = intRange (B.cut 0) (B.cut B.nb) := by
    rw [h0, hN]
  have main : ∀ (cols : List ℤ) (gp : Grid) (ρp : ℕ → ℚ) (gs : Grid) (ms : ℚ),
      gp = gs →
      ((List.range B.nb).foldl (fun a b => max a (ρp b)) 0 = ms) →
      (∀ b, 0 ≤ ρp b) →
      ((cols.foldl (fun s ix =>
          (List.range B.nb).foldl (fun s b => act P B (ix, b) s) s) (gp, ρp)).1
        = (cols.foldl (fun s ix => runRows P ix (intRange 0 P.ySize) s) (gs, ms)).1)
      ∧ ((List.range B.nb).foldl (fun a b => max a
          ((cols.foldl (fun s ix =>
            (List.range B.nb).foldl (fun s b => act P B (ix, b) s) s) (gp, ρp)).2 b)) 0
        = (cols.foldl (fun s ix => runRows P ix (intRange 0 P.ySize) s) (gs, ms)).2)
      ∧ (∀ b, 0 ≤ (cols.foldl (fun s ix =>
          (List.range B.nb).foldl (fun s b => act P B (ix, b) s) s) (gp, ρp)).2 b) := by
    intro cols
    induction cols with
    | nil =>
      intro gp ρp gs ms h1 h2 h3
      exact ⟨h1, h2, h3⟩
    | cons ix cols ihc =>
      intro gp ρp gs ms h1 h2 h3
      rw [List.foldl_cons, List.foldl_cons]
      obtain ⟨cp1, cp2, cp3⟩ := col_par P B hmono ix B.nb gp ρp h3
      have hms0 : 0 ≤ ms := h2 ▸ foldl_max_acc_le ρp (List.range B.nb) 0
      have hgrid :
          ((List.range B.nb).foldl (fun s b => act P B (ix, b) s) (gp, ρp)).1
            = (runRows P ix (intRange 0 P.ySize) (gs, ms)).1 := by
        rw [cp1, hrange, ← h1,
            runRows_fst_indep P ix (intRange (B.cut 0) (B.cut B.nb)) gp ms 0]
      have hres :
          (List.range B.nb).foldl (fun a b => max a
            (((List.range B.nb).foldl (fun s b => act P B (ix, b) s) (gp, ρp)).2 b)) 0
            = (runRows P ix (intRange 0 P.ySize) (gs, ms)).2 := by
        rw [foldl_range_congr _
              (fun a b => max a (max (ρp b) ((runRows P ix (bandRows B b)
                ((runRows P ix (intRange (B.cut 0) (B.cut b)) (gp, 0)).1, 0)).2)))
              B.nb 0 (fun x b hb => by rw [cp2 b hb]),
            fold_max_merge, h2, hrange, ← h1, col_seq P B hmono ix B.nb gp ms hms0,
            fold_max_out _ B.nb ms hms0]
      have hnn : ∀ b, 0 ≤
          ((List.range B.nb).foldl (fun s b => act P B (ix, b) s) (gp, ρp)).2 b := by
        intro b
        rcases Nat.lt_or_ge b B.nb with hb | hb
        · rw [cp2 b hb]
          exact le_trans (h3 b) (le_max_left _ _)
        · rw [cp3 b hb]
          exact h3 b
      have hEp : ((List.range B.nb).foldl (fun s b => act P B (ix, b) s) (gp, ρp))
          = (((List.range B.nb).foldl (fun s b => act P B (ix, b) s) (gp, ρp)).1,
             ((List.range B.nb).foldl (fun s b => act P B (ix, b) s) (gp, ρp)).2) := rfl
      have hEs : (runRows P ix (intRange 0 P.ySize) (gs, ms))
          = ((runRows P ix (intRange 0 P.ySize) (gs, ms)).1,
             (runRows P ix (intRange 0 P.ySize) (gs, ms)).2) := rfl
      rw [hEp, hEs]
      exact ihc _ _ _ _ hgrid hres hnn
  have := main (intRange 0 P.xSize) g (fun _ => 0) g 0 rfl
    (by dsimp only; exact fold_max_zero B.nb) (fun b => le_refl 0)
  unfold runSchedule lexUnits worker
  rw [foldl_flatMap]
  simp only [List.foldl_map]
  exact this

theorem maxList_eq_foldl_zero (l : List ℚ) (h0 : ∀ x ∈ l, 0 ≤ x)
    (hne : l ≠ []) : maxList l = l.foldl max 0 := by
  match l with
  | [] => exact absurd rfl hne
  | x :: xs =>
    show xs.foldl max x = (x :: xs).foldl max 0
    rw [List.foldl_cons, max_eq_right (h0 x (List.mem_cons_self _ _))]

/-- Claim C2: one relaxation sweep executed with a single thread and one
executed with any number of bands under the pipelined handshake (any
schedule of `(column, band)` units that is admissible for the handshake
order, i.e. a band processes column `ix` only after the preceding band has
completed column `ix`) produce identical grid contents and an identical
returned maximum residual — the effective per-cell update order equals the
single-threaded scan order. -/
theorem c2_pipelined_equals_sequential (P : Params) (B : Bands)
    (hv : validBands P B) (g : Grid) (L : List (ℤ × ℕ))
    (hperm : L.Perm (lexUnits P B)) (hadm : Admissible L) :
    gauss_seidel_par P B L g = worker P 0 P.ySize g := by
  have hmono := hv.2.2.2
  have hsched : runSchedule P B L g = runSchedule P B (lexUnits P B) g := by
    unfold runSchedule
    exact foldl_act_perm (act P B) unitLT (lexUnits P B) (lexUnits_nodup P B)
      (fun u _ v _ h1 h2 hne t => act_comm P B hmono u v
        (incomparable_units h1 h2 hne).1 (incomparable_units h1 h2 hne).2 t)
      (lexUnits_admissible P B) L hperm hadm _
  obtain ⟨hg, hres, hnn⟩ := sched_lex_eq_seq P B hv g
  unfold gauss_seidel_par
  rw [hsched]
  refine Prod.ext hg ?_
  show maxList ((List.range B.nb).map (runSchedule P B (lexUnits P B) g).2) = _
  rw [maxList_eq_foldl_zero _
      (fun x hx => by
        rcases List.mem_map.mp hx with ⟨b, _, rfl⟩
        exact hnn b)
      (by
        intro hcon
        rw [List.map_eq_nil_iff, List.range_eq_nil] at hcon
        have hnb : 1 ≤ B.nb := hv.1
        omega),
    List.foldl_map]
  exact hres

/-- Witness for C2: a 2×2 fully masked grid split into two bands, executed
under the genuinely interleaved pipelined schedule
`(0,0), (1,0), (0,1), (1,1)` (band 0 runs ahead of band 1 by one column),
agrees with the single-threaded sweep. -/
theorem c2_pipelined_equals_sequential_witness :
    validBands ⟨2, 2, false, 1, fun _ _ => true⟩ ⟨2, fun b => (b : ℤ)⟩ ∧
    List.Perm [((0 : ℤ), (0 : ℕ)), (1, 0), (0, 1), (1, 1)]
      (lexUnits ⟨2, 2, false, 1, fun _ _ => true⟩ ⟨2, fun b => (b : ℤ)⟩) ∧
    Admissible [((0 : ℤ), (0 : ℕ)), (1, 0), (0, 1), (1, 1)] ∧
    gauss_seidel_par ⟨2, 2, false, 1, fun _ _ => true⟩ ⟨2, fun b => (b : ℤ)⟩
        [((0 : ℤ), (0 : ℕ)), (1, 0), (0, 1), (1, 1)] (fun _ _ => 1) =
      worker ⟨2, 2, false, 1, fun _ _ => true⟩ 0 2 (fun _ _ => 1) := by
  have hval : validBands ⟨2, 2, false, 1, fun _ _ => true⟩ ⟨2, fun b => (b : ℤ)⟩ :=
    ⟨by decide, rfl, rfl, fun i j h => Int.ofNat_le.mpr h⟩
  have hperm : List.Perm [((0 : ℤ), (0 : ℕ)), (1, 0), (0, 1), (1, 1)]
      (lexUnits ⟨2, 2, false, 1, fun _ _ => true⟩ ⟨2, fun b => (b : ℤ)⟩) := by
    decide
  have hadm : Admissible [((0 : ℤ), (0 : ℕ)), (1, 0), (0, 1), (1, 1)] := by
    decide
  exact ⟨hval, hperm, hadm,
    c2_pipelined_equals_sequential _ _ hval (fun _ _ => 1) _ hperm hadm⟩

theorem foldl_weight_sum {α : Type} (val : α → Option ℝ) (w : α → ℝ) :
    ∀ (l : List α) (a : ℝ × ℝ),
      l.foldl (fun a p =>
        match val p with
        | none => a
        | some z => (a.1 + w p * z, a.2 + w p)) a =
      (a.1 + ((l.filterMap (fun p => (val p).map (fun z => (p, z)))).map
          (fun pz => w pz.1 * pz.2)).sum,
       a.2 + ((l.filterMap (fun p => (val p).map (fun z => (p, z)))).map
          (fun pz => w pz.1)).sum) := by
  intro l
  induction l with
  | nil => intro a; simp
  | cons p l ih =>
    intro a
    rw [List.foldl_cons]
    cases hval : val p with
    | none =>
      rw [ih, List.filterMap_cons]
      simp [hval]
    | some z =>
      rw [ih, List.filterMap_cons]
      simp only [hval, Option.map_some', List.map_cons, List.sum_cons,
        Prod.mk.injEq]
      refine ⟨by ring, by ring⟩

/-- The nested accumulation equals the sums over the defined window cells. -/
theorem loess_acc_eq (G : LGrid) (nx ny : ℕ) (ix iy : ℤ) :
    loess_acc G nx ny ix iy =
      (((definedPairs G nx ny ix iy).map
          (fun pz => triCube (cellDist G nx ny ix iy pz.1.1 pz.1.2) * pz.2)).sum,
       ((definedPairs G nx ny ix iy).map
          (fun pz => triCube (cellDist G nx ny ix iy pz.1.1 pz.1.2))).sum) := by
  have hflat : loess_acc G nx ny ix iy =
      (windowPairs G nx ny ix iy).foldl (fun a p =>
        match G.val p.1 p.2 with
        | none => a
        | some z => (a.1 + triCube (cellDist G nx ny ix iy p.1 p.2) * z,
                     a.2 + triCube (cellDist G nx ny ix iy p.1 p.2))) (0, 0) := by
    unfold loess_acc windowPairs
    rw [foldl_flatMap]
    simp only [List.foldl_map]
  rw [hflat,
      foldl_weight_sum (fun p : ℤ × ℤ => G.val p.1 p.2)
        (fun p : ℤ × ℤ => triCube (cellDist G nx ny ix iy p.1 p.2))
        (windowPairs G nx ny ix iy) (0, 0)]
  unfold definedPairs
  rw [Prod.mk.injEq]
  exact ⟨by rw [zero_add], by rw [zero_add]⟩

/-! ### Claim C8 (corrected): the LOESS weighted average -/

/-- Counterexample to C8 as stated: with half-window 1 on both axes, the code
(which measures Δx as the axis-coordinate difference `1/2`, hence `d = 1/2`
and a positive weight) fills cell (0,0) with 5, whereas the claim's
grid-index-unit distance gives `d = 1`, weight exactly 0, and therefore no
defined output — the two disagree. -/
theorem c8_counterexample :
    loess_cell gridC8 1 1 0 0 = some 5 ∧
    loess_cell_index_units gridC8 1 1 0 0 = none ∧
    loess_cell gridC8 1 1 0 0 ≠ loess_cell_index_units gridC8 1 1 0 0 := by
  have hval00 : gridC8.val 0 0 = none := by
    show (if (0 : ℤ) = 1 ∧ (0 : ℤ) = 0 then some (5 : ℝ) else none) = none
    rw [if_neg]
    rintro ⟨h, -⟩
    exact absurd h (by decide)
  have hval10 : gridC8.val 1 0 = some 5 := by
    show (if (1 : ℤ) = 1 ∧ (0 : ℤ) = 0 then some (5 : ℝ) else none) = some 5
    rw [if_pos ⟨rfl, rfl⟩]
  have hxs : find_indexes gridC8.xSize 0 1 = [0, 1] := by
    show find_indexes 2 0 1 = [0, 1]
    decide
  have hys : find_indexes gridC8.ySize 0 1 = [0] := by
    show find_indexes 1 0 1 = [0]
    decide
  have hdist : cellDist gridC8 1 1 0 0 1 0 = 1 / 2 := by
    unfold cellDist
    have hin : ((gridC8.xc 1 - gridC8.xc 0) / ((1 : ℕ) : ℝ)) ^ 2 +
        ((gridC8.yc 0 - gridC8.yc 0) / ((1 : ℕ) : ℝ)) ^ 2 = (1 / 2 : ℝ) ^ 2 := by
      show ((((1 : ℤ) : ℝ) / 2 - ((0 : ℤ) : ℝ) / 2) / ((1 : ℕ) : ℝ)) ^ 2 +
        (((0 : ℝ) - 0) / ((1 : ℕ) : ℝ)) ^ 2 = (1 / 2 : ℝ) ^ 2
      norm_num
    rw [hin, Real.sqrt_sq (by norm_num : (0 : ℝ) ≤ 1 / 2)]
  have hw : triCube (1 / 2 : ℝ) = 343 / 512 := by
    unfold triCube
    rw [if_pos (by norm_num : (1 / 2 : ℝ) ≤ 1)]
    norm_num
  have hacc : loess_acc gridC8 1 1 0 0 = (343 / 512 * 5, 343 / 512) := by
    unfold loess_acc
    rw [hxs, hys]
    simp only [List.foldl_cons, List.foldl_nil, hval00, hval10]
    rw [hdist, hw]
    norm_num
  have haccI : loess_acc_index_units gridC8 1 1 0 0 = (0, 0) := by
    unfold loess_acc_index_units
    rw [hxs, hys]
    simp only [List.foldl_cons, List.foldl_nil, hval00, hval10]
    have hd1 : Real.sqrt (((((1 : ℤ) - 0 : ℤ) : ℝ) / ((1 : ℕ) : ℝ)) ^ 2 +
        ((((0 : ℤ) - 0 : ℤ) : ℝ) / ((1 : ℕ) : ℝ)) ^ 2) = 1 := by
      have hin : ((((1 : ℤ) - 0 : ℤ) : ℝ) / ((1 : ℕ) : ℝ)) ^ 2 +
          ((((0 : ℤ) - 0 : ℤ) : ℝ) / ((1 : ℕ) : ℝ)) ^ 2 = 1 := by
        norm_num
      rw [hin, Real.sqrt_one]
    rw [hd1]
    have hw1 : triCube (1 : ℝ) = 0 := by
      unfold triCube
      rw [if_pos le_rfl]
      norm_num
    rw [hw1]
    norm_num
  have h1 : loess_cell gridC8 1 1 0 0 = some 5 := by
    unfold loess_cell
    rw [hval00, hacc]
    show (if (343 / 512 * 5, (343 / 512 : ℝ)).2 ≠ 0 then _ else _) = _
    rw [if_pos (by norm_num : ((343 / 512 * 5, (343 / 512 : ℝ)).2 ≠ 0))]
    norm_num
  have h2 : loess_cell_index_units gridC8 1 1 0 0 = none := by
    unfold loess_cell_index_units
    rw [hval00, haccI]
    rw [if_neg (by norm_num : ¬ (((0 : ℝ), (0 : ℝ)).2 ≠ 0))]
  refine ⟨h1, h2, ?_⟩
  rw [h1, h2]
  exact Option.some_ne_none 5

/-- Claim C8 amended: for every undefined cell whose window holds at least
one defined cell of positive total weight, the LOESS output is the weighted
average of the defined window cells under the tri-cube kernel of the
normalized distance `d = sqrt((Δx/halfWidthX)^2 + (Δy/halfWidthY)^2)`, where
Δx and Δy are axis-coordinate differences (not index differences); the
weight is exactly zero for `d > 1`, and undefined window cells contribute
neither value nor weight (the sums range over the defined cells only). -/
theorem c8_loess_weighted_average (G : LGrid) (nx ny : ℕ) (ix iy : ℤ)
    (hcell : G.val ix iy = none)
    (hW : ((definedPairs G nx ny ix iy).map
        (fun pz => triCube (cellDist G nx ny ix iy pz.1.1 pz.1.2))).sum ≠ 0) :
    loess G nx ny ix iy =
      some ((((definedPairs G nx ny ix iy).map
          (fun pz => triCube (cellDist G nx ny ix iy pz.1.1 pz.1.2) * pz.2)).sum) /
        (((definedPairs G nx ny ix iy).map
          (fun pz => triCube (cellDist G nx ny ix iy pz.1.1 pz.1.2))).sum))
    ∧ (∀ d : ℝ, 1 < d → triCube d = 0) := by
  constructor
  · show loess_cell G nx ny ix iy = _
    unfold loess_cell
    rw [hcell, loess_acc_eq]
    show (if _ ≠ (0:ℝ) then _ else _) = _
    rw [if_pos hW]
  · intro d hd
    unfold triCube
    rw [if_neg (not_le.mpr hd)]

theorem c8_loess_weighted_average_witness :
    gridC8w.val 0 0 = none ∧
    ((definedPairs gridC8w 1 1 0 0).map
      (fun pz => triCube (cellDist gridC8w 1 1 0 0 pz.1.1 pz.1.2))).sum ≠ 0 ∧
    loess gridC8w 1 1 0 0 =
      some ((((definedPairs gridC8w 1 1 0 0).map
          (fun pz => triCube (cellDist gridC8w 1 1 0 0 pz.1.1 pz.1.2) * pz.2)).sum) /
        (((definedPairs gridC8w 1 1 0 0).map
          (fun pz => triCube (cellDist gridC8w 1 1 0 0 pz.1.1 pz.1.2))).sum)) := by
  have hval00 : gridC8w.val 0 0 = none := by
    show (if (0 : ℤ) = 1 ∧ (0 : ℤ) = 0 then some (5 : ℝ) else none) = none
    rw [if_neg]
    rintro ⟨h, -⟩
    exact absurd h (by decide)
  have hdist : ∀ wx wy : ℤ, cellDist gridC8w 1 1 0 0 wx wy = 0 := by
    intro wx wy
    unfold cellDist
    show Real.sqrt ((((0:ℝ) - 0) / ((1:ℕ):ℝ)) ^ 2 + (((0:ℝ) - 0) / ((1:ℕ):ℝ)) ^ 2) = 0
    rw [show (((0:ℝ) - 0) / ((1:ℕ):ℝ)) ^ 2 + (((0:ℝ) - 0) / ((1:ℕ):ℝ)) ^ 2 = 0 by norm_num,
        Real.sqrt_zero]
  have hv10 : gridC8w.val 1 0 = some 5 := by
    show (if (1 : ℤ) = 1 ∧ (0 : ℤ) = 0 then some (5 : ℝ) else none) = some 5
    rw [if_pos ⟨rfl, rfl⟩]
  have hpairs : definedPairs gridC8w 1 1 0 0 = [((1, 0), 5)] := by
    unfold definedPairs windowPairs
    have hxs : find_indexes gridC8w.xSize 0 1 = [0, 1] := by
      show find_indexes 2 0 1 = [0, 1]
      decide
    have hys : find_indexes gridC8w.ySize 0 1 = [0] := by
      show find_indexes 1 0 1 = [0]
      decide
    rw [hxs, hys]
    simp [hval00, hv10]
  have htri0 : triCube (0 : ℝ) = 1 := by
    unfold triCube
    rw [if_pos (by norm_num : (0:ℝ) ≤ 1)]
    norm_num
  have hWsum : ((definedPairs gridC8w 1 1 0 0).map
      (fun pz => triCube (cellDist gridC8w 1 1 0 0 pz.1.1 pz.1.2))).sum ≠ 0 := by
    rw [hpairs]
    simp only [List.map_cons, List.map_nil, List.sum_cons, List.sum_nil]
    rw [hdist 1 0, htri0]
    norm_num
  exact ⟨hval00, hWsum,
    (c8_loess_weighted_average gridC8w 1 1 0 0 hval00 hWsum).1⟩

/-! ### Claim C9: zero-weight pass-through -/

/-- Claim C9: an undefined cell whose entire window is undefined accumulates
weight 0 and is passed through unchanged — the output cell stays undefined,
it is neither turned into a number nor zeroed, and the call returns normally
(the function is total). -/
theorem c9_zero_weight_passthrough (G : LGrid) (nx ny : ℕ) (ix iy : ℤ)
    (hcell : G.val ix iy = none)
    (hwin : ∀ p ∈ windowPairs G nx ny ix iy, G.val p.1 p.2 = none) :
    loess G nx ny ix iy = none := by
  have hpairs : definedPairs G nx ny ix iy = [] := by
    unfold definedPairs
    rw [List.filterMap_eq_nil_iff]
    intro p hp
    rw [hwin p hp]
    rfl
  show loess_cell G nx ny ix iy = none
  unfold loess_cell
  rw [hcell, loess_acc_eq, hpairs]
  simp

theorem c9_zero_weight_passthrough_witness :
    gridC9.val 0 0 = none ∧ loess gridC9 1 1 0 0 = none :=
  ⟨rfl, c9_zero_weight_passthrough gridC9 1 1 0 0 rfl (fun p _ => rfl)⟩

end PyinterpFill
